import Mathlib

/-!
Verification development for the WCA new-competition checker script
(check_comps.py).  The script is embedded shallowly: text files are lists of
characters, the wall clock and the home-directory dependent paths are
explicit parameters, and the Python string operations used by the script
(split on a newline, join, strip, startswith, sorted, set) are translated
character by character.  Whitespace is modelled by the six ASCII whitespace
characters that Python strips; all inputs considered here are ASCII.
-/

/-- Convert a string literal to the character-list representation used for
Python text throughout this development. -/
def str (x : String) : List Char := x.data

/-- The six ASCII whitespace characters recognised by the Python `strip`
family (space, tab, newline, carriage return, vertical tab, form feed). -/
def isPySpace (c : Char) : Bool :=
  c = ' ' || c = '\t' || c = '\n' || c = '\r' || c = '\x0b' || c = '\x0c'

/-- Python `s.split "\n"`: split a text at every newline, keeping empty
pieces; the empty text yields one empty piece. -/
def splitOnNl : List Char → List (List Char)
  | [] => [[]]
  | c :: cs =>
    if c = '\n' then [] :: splitOnNl cs
    else
      match splitOnNl cs with
      | [] => [[c]]
      | r :: rs => (c :: r) :: rs

/-- Python `"\n".join lines`. -/
def joinNl : List (List Char) → List Char
  | [] => []
  | [x] => x
  | x :: y :: ys => x ++ '\n' :: joinNl (y :: ys)

/-- Python `"\n\n".join blocks` (used between competition renderings). -/
def joinBlank : List (List Char) → List Char
  | [] => []
  | [x] => x
  | x :: y :: ys => x ++ '\n' :: '\n' :: joinBlank (y :: ys)

/-- Python `s.lstrip ()` restricted to ASCII whitespace. -/
def lstripPy (s : List Char) : List Char := s.dropWhile isPySpace

/-- Python `s.rstrip ()` restricted to ASCII whitespace. -/
def rstripPy (s : List Char) : List Char := (s.reverse.dropWhile isPySpace).reverse

/-- Python `s.strip ()` restricted to ASCII whitespace. -/
def pyStrip (s : List Char) : List Char := lstripPy (rstripPy s)

/-- Python string comparison (code-point lexicographic, a proper prefix is
smaller), as a boolean `less or equal`. -/
def lexLe : List Char → List Char → Bool
  | [], _ => true
  | _ :: _, [] => false
  | a :: as, b :: bs =>
    if a.toNat < b.toNat then true
    else if b.toNat < a.toNat then false
    else lexLe as bs

/-- Decimal rendering of a natural number, as Python `f-string` formatting
of a nonnegative `int`. -/
def natStr (n : Nat) : List Char := (Nat.repr n).data

/-! ## The datetime fragment used by the script

Only `datetime.strptime` with the fixed format `%Y-%m-%dT%H:%M:%S.%fZ`,
`datetime.now ()` and comparison of naive datetimes are used.  A parsed
datetime is a seven-field record compared lexicographically, exactly as
CPython compares naive `datetime` objects. -/

structure PyDateTime where
  year : Nat
  month : Nat
  day : Nat
  hour : Nat
  minute : Nat
  second : Nat
  microsecond : Nat
deriving DecidableEq, Repr

/-- CPython comparison of naive datetimes: lexicographic on the fields. -/
def pyDTlt (a b : PyDateTime) : Bool :=
  if a.year ≠ b.year then decide (a.year < b.year)
  else if a.month ≠ b.month then decide (a.month < b.month)
  else if a.day ≠ b.day then decide (a.day < b.day)
  else if a.hour ≠ b.hour then decide (a.hour < b.hour)
  else if a.minute ≠ b.minute then decide (a.minute < b.minute)
  else if a.second ≠ b.second then decide (a.second < b.second)
  else decide (a.microsecond < b.microsecond)

def digitVal (c : Char) : Nat := c.toNat - 48

/-- Format directive `%Y` of `_strptime`: exactly four digits. -/
def parseY : List Char → Option (Nat × List Char)
  | a :: b :: c :: d :: rest =>
    if a.isDigit && b.isDigit && c.isDigit && d.isDigit then
      some (1000 * digitVal a + 100 * digitVal b + 10 * digitVal c + digitVal d, rest)
    else none
  | _ => none

/-- Literal character in the `_strptime` format (the format regex is
compiled case-insensitively, so letters match either case). -/
def expectCI (c : Char) : List Char → Option (List Char)
  | x :: rest => if x.toLower = c.toLower then some rest else none
  | [] => none

/-- Format directive `%m`: the regex alternatives `1[0-2]`, `0[1-9]`,
`[1-9]` tried in order with backtracking; since the next literal is never a
digit, ordered choice is equivalent. -/
def parseMonth : List Char → Option (Nat × List Char)
  | c1 :: c2 :: rest =>
    if c1 = '1' && '0' ≤ c2 && c2 ≤ '2' then some (10 + digitVal c2, rest)
    else if c1 = '0' && '1' ≤ c2 && c2 ≤ '9' then some (digitVal c2, rest)
    else if '1' ≤ c1 && c1 ≤ '9' then some (digitVal c1, c2 :: rest)
    else none
  | [c1] => if '1' ≤ c1 && c1 ≤ '9' then some (digitVal c1, []) else none
  | [] => none

/-- Format directive `%d`: regex `3[01]|[1-2]\d|0[1-9]|[1-9]`. -/
def parseDay : List Char → Option (Nat × List Char)
  | c1 :: c2 :: rest =>
    if c1 = '3' && '0' ≤ c2 && c2 ≤ '1' then some (30 + digitVal c2, rest)
    else if '1' ≤ c1 && c1 ≤ '2' && c2.isDigit then some (10 * digitVal c1 + digitVal c2, rest)
    else if c1 = '0' && '1' ≤ c2 && c2 ≤ '9' then some (digitVal c2, rest)
    else if '1' ≤ c1 && c1 ≤ '9' then some (digitVal c1, c2 :: rest)
    else none
  | [c1] => if '1' ≤ c1 && c1 ≤ '9' then some (digitVal c1, []) else none
  | [] => none

/-- Format directive `%H`: regex `2[0-3]|[0-1]\d|\d`. -/
def parseHour : List Char → Option (Nat × List Char)
  | c1 :: c2 :: rest =>
    if c1 = '2' && '0' ≤ c2 && c2 ≤ '3' then some (20 + digitVal c2, rest)
    else if '0' ≤ c1 && c1 ≤ '1' && c2.isDigit then some (10 * digitVal c1 + digitVal c2, rest)
    else if c1.isDigit then some (digitVal c1, c2 :: rest)
    else none
  | [c1] => if c1.isDigit then some (digitVal c1, []) else none
  | [] => none

/-- Format directive `%M`: regex `[0-5]\d|\d`. -/
def parseMin : List Char → Option (Nat × List Char)
  | c1 :: c2 :: rest =>
    if '0' ≤ c1 && c1 ≤ '5' && c2.isDigit then some (10 * digitVal c1 + digitVal c2, rest)
    else if c1.isDigit then some (digitVal c1, c2 :: rest)
    else none
  | [c1] => if c1.isDigit then some (digitVal c1, []) else none
  | [] => none

/-- Format directive `%S`: regex `6[0-1]|[0-5]\d|\d` (leap seconds are
accepted by the regex; the `datetime` constructor rejects them later). -/
def parseSec : List Char → Option (Nat × List Char)
  | c1 :: c2 :: rest =>
    if c1 = '6' && '0' ≤ c2 && c2 ≤ '1' then some (60 + digitVal c2, rest)
    else if '0' ≤ c1 && c1 ≤ '5' && c2.isDigit then some (10 * digitVal c1 + digitVal c2, rest)
    else if c1.isDigit then some (digitVal c1, c2 :: rest)
    else none
  | [c1] => if c1.isDigit then some (digitVal c1, []) else none
  | [] => none

/-- Format directive `%f`: one to six digits, padded to microseconds.  A run
of more than six digits fails the whole match because the following literal
can never be a digit. -/
def parseFrac (s : List Char) : Option (Nat × List Char) :=
  let digits := s.takeWhile Char.isDigit
  if digits.length = 0 || 6 < digits.length then none
  else
    some ((digits.foldl (fun a c => 10 * a + digitVal c) 0) * 10 ^ (6 - digits.length),
      s.drop digits.length)

def isLeapYear (y : Nat) : Bool := (y % 4 = 0 && y % 100 ≠ 0) || y % 400 = 0

def daysInMonth (y m : Nat) : Nat :=
  if m = 2 then (if isLeapYear y then 29 else 28)
  else if m = 4 || m = 6 || m = 9 || m = 11 then 30
  else 31

/-- Python `datetime.strptime s "%Y-%m-%dT%H:%M:%S.%fZ"`, returning `none`
exactly when CPython raises `ValueError`: a regex mismatch, leftover input,
an invalid calendar date, a year of zero, or a leap second rejected by the
`datetime` constructor. -/
def strptimeWCA (s : List Char) : Option PyDateTime := do
  let (y, s) ← parseY s
  let s ← expectCI '-' s
  let (mo, s) ← parseMonth s
  let s ← expectCI '-' s
  let (dy, s) ← parseDay s
  let s ← expectCI 'T' s
  let (h, s) ← parseHour s
  let s ← expectCI ':' s
  let (mi, s) ← parseMin s
  let s ← expectCI ':' s
  let (sec, s) ← parseSec s
  let s ← expectCI '.' s
  let (us, s) ← parseFrac s
  let s ← expectCI 'Z' s
  match s with
  | [] =>
    if y = 0 then none
    else if daysInMonth y mo < dy then none
    else if 59 < sec then none
    else some ⟨y, mo, dy, h, mi, sec, us⟩
  | _ => none

/-- Insert an element into an already sorted list, before the first
element it compares less-or-equal to.  Together with `sortBy` this is a
stable ascending sort, extensionally the behaviour of Python `sorted`
(structural recursion is used so that proofs can evaluate it). -/
def insortBy {a : Type} (le : a → a → Bool) (x : a) : List a → List a
  | [] => [x]
  | y :: ys => if le x y then x :: y :: ys else y :: insortBy le x ys

/-- Stable ascending sort by the boolean relation `le`, the behaviour of
Python `sorted` with a key. -/
def sortBy {a : Type} (le : a → a → Bool) (l : List a) : List a :=
  l.foldr (insortBy le) []

/-! ## The data model and operations of check_comps.py -/

/-- A WCA competition (the `Competition` dataclass): nine string fields
taken verbatim from the remote response. -/
structure Competition where
  cid : List Char
  name : List Char
  website : List Char
  city : List Char
  announced_at : List Char
  registration_open : List Char
  registration_close : List Char
  start_date : List Char
  end_date : List Char
deriving DecidableEq, Repr

/-- Method `Competition.is_registration_closed`: parse the close timestamp
with the fixed format; a `ValueError` is caught and answered with `False`;
otherwise compare with the current time. -/
def is_registration_closed (c : Competition) (now : PyDateTime) : Bool :=
  match strptimeWCA c.registration_close with
  | none => false
  | some reg_close => pyDTlt reg_close now

/-- Python `s.expandtabs ()` with tab size eight: the column count resets
after a newline or carriage return. -/
def expandtabsGo : Nat → List Char → List Char
  | _, [] => []
  | col, c :: cs =>
    if c = '\t' then
      List.replicate (8 - col % 8) ' ' ++ expandtabsGo (col + (8 - col % 8)) cs
    else if c = '\n' || c = '\r' then c :: expandtabsGo 0 cs
    else c :: expandtabsGo (col + 1) cs

def expandtabs (s : List Char) : List Char := expandtabsGo 0 s

/-- CPython `inspect.cleandoc`: expand tabs, split into lines, remove the
common indentation of the lines after the first, fully left-strip the first
line, then drop leading and trailing blank lines. -/
def cleandoc (doc : List Char) : List Char :=
  let lines := splitOnNl (expandtabs doc)
  let indents := ((lines.tail.filter (fun ln => !(ln.dropWhile isPySpace).isEmpty)).map
    (fun ln => ln.length - (ln.dropWhile isPySpace).length))
  let lines :=
    match lines with
    | [] => []
    | l0 :: rest =>
      (l0.dropWhile isPySpace) ::
        (match indents.min? with
         | none => rest
         | some margin => rest.map (fun (ln : List Char) => ln.drop margin))
  let lines := (lines.reverse.dropWhile List.isEmpty).reverse
  let lines := lines.dropWhile List.isEmpty
  joinNl lines

/-- The f-string inside `Competition.__str__`, before `cleandoc`: a leading
newline, the name indented twelve spaces, the labelled detail lines
indented sixteen spaces (including the stray closing parenthesis after the
registration range that is present in the source), and a trailing indented
line. -/
def rawRender (c : Competition) : List Char :=
  str "\n            " ++ c.name ++
  str "\n                City:         " ++ c.city ++
  str "\n                Date:         " ++ c.start_date ++ str " to " ++ c.end_date ++
  str "\n                Registration: " ++ c.registration_open ++ str " to " ++
    c.registration_close ++
  str ")\n                Website:      " ++ c.website ++
  str "\n            "

/-- Method `Competition.__str__`: `cleandoc` of the f-string, stripped. -/
def renderComp (c : Competition) : List Char := pyStrip (cleandoc (rawRender c))

/-- The constant `FIRST_LINE` of the script. -/
def FIRST_LINE : List Char := str "Upcoming WCA events in Canada (in ~/wca.txt)"

/-- The replacement header written over an existing header line: the marker,
the formatted time, and a trailing colon. -/
def headerReplaced (now : List Char) : List Char :=
  FIRST_LINE ++ str " as of " ++ now ++ str ":"

/-- The header inserted when no header line exists: the marker and the
formatted time, without a trailing colon. -/
def headerInserted (now : List Char) : List Char :=
  FIRST_LINE ++ str " as of " ++ now

/-- The per-line pass of `store_comp_details`: every line that starts with
the marker is overwritten with the refreshed header. -/
def replaceHeaderLine (now : List Char) (ln : List Char) : List Char :=
  if FIRST_LINE.isPrefixOf ln then headerReplaced now else ln

/-- Function `store_comp_details`: sort the competitions by announcement
time, read the old document (an absent file reads as empty), refresh every
header line in place or insert a fresh header at the top if none is found,
strip the joined text, and append two newlines, the blank-line separated
renderings, and a final newline.  The current time is injected as the
already formatted string `now`. -/
def store_comp_details (comps : List Competition) (now : List Char)
    (oldFile : Option (List Char)) : List Char :=
  let comps := sortBy (fun a b => lexLe a.announced_at b.announced_at) comps
  let old_text := oldFile.getD []
  let lines := splitOnNl old_text
  let lines := lines.map (replaceHeaderLine now)
  let lines :=
    if lines.any (fun ln => FIRST_LINE.isPrefixOf ln) then lines
    else headerInserted now :: lines
  let msg := pyStrip (joinNl lines)
  msg ++ str "\n\n" ++ joinBlank (comps.map renderComp) ++ str "\n"

/-- Function `get_old_comp_ids`: an absent file reads as no ids; otherwise
split on newlines, strip each line, and keep the nonempty results. -/
def get_old_comp_ids (idsFile : Option (List Char)) : List (List Char) :=
  match idsFile with
  | none => []
  | some txt => ((splitOnNl txt).map pyStrip).filter (fun x => !x.isEmpty)

/-- Python `sorted (set ids)`: the distinct elements in ascending string
order.  `dedup` keeps one copy of every element and a stable merge sort
arranges them. -/
def sortedSetIds (ids : List (List Char)) : List (List Char) :=
  sortBy lexLe ids.dedup

/-- Function `store_comp_ids`: overwrite the id file with the sorted
deduplicated ids, one per line. -/
def store_comp_ids (comp_ids : List (List Char)) : List Char :=
  joinNl (sortedSetIds comp_ids)

/-- Function `notify_new_comps`: the argument vector handed to
`subprocess.run`, with singular grammar exactly for a count of one.  The
icon path depends on the home directory and is passed in. -/
def notify_new_comps (icon : List Char) (n : Nat) : List (List Char) :=
  let comp_or_comps := if n = 1 then str "competition" else str "competitions"
  let has_or_have := if n = 1 then str "has" else str "have"
  [str "notify-send", str "--icon", icon,
    str "WCA " ++ comp_or_comps,
    natStr n ++ str " new " ++ comp_or_comps ++ str " " ++ has_or_have ++
      str " been announced in Canada."]

/-- The request URL built in `get_canadian_comps`. -/
def wcaURL : List Char :=
  str "https://www.worldcubeassociation.org/api/v0/competitions?country_iso2=CA"

/-- The errors the script can raise in the fragment modelled here. -/
inductive PyErr where
  | valueError (msg : List Char)
deriving DecidableEq, Repr

/-- Function `get_canadian_comps`: the response is modelled by its status
code and its already deserialised body; a status outside the 2xx range
raises `ValueError` with the URL and the status in the message. -/
def get_canadian_comps (status : Nat) (body : List Competition) :
    Except PyErr (List Competition) :=
  if status / 100 ≠ 2 then
    Except.error (PyErr.valueError
      (str "Request to " ++ wcaURL ++ str " failed with status " ++ natStr status ++ str "."))
  else Except.ok body

/-- The two persisted files; `none` models an absent file. -/
structure FileState where
  comps : Option (List Char)
  ids : Option (List Char)
deriving DecidableEq, Repr

/-- The filter comprehension inside `main`: keep a competition when its
registration is not closed and its id is not among the previously seen
ids. -/
def mainFilter (comps : List Competition) (old_comp_ids : List (List Char))
    (now : PyDateTime) : List Competition :=
  comps.filter (fun c => !(is_registration_closed c now) && !(old_comp_ids.contains c.cid))

/-- Function `main` of the script (named `runMain` here because a Lean
declaration called `main` must be a program entry point): load the old ids,
fetch (an error aborts the run with the files untouched), filter, always
rewrite the details file, and only when new competitions exist store the
extended id list and notify.  The result is the final file state, the list
of notification calls made, and the error if one was raised. -/
def runMain (status : Nat) (body : List Competition) (now : PyDateTime)
    (nowStr : List Char) (icon : List Char) (fs : FileState) :
    FileState × List (List (List Char)) × Option PyErr :=
  let old_comp_ids := get_old_comp_ids fs.ids
  match get_canadian_comps status body with
  | Except.error e => (fs, [], some e)
  | Except.ok comps =>
    let new_comps := mainFilter comps old_comp_ids now
    let fs1 : FileState := ⟨some (store_comp_details new_comps nowStr fs.comps), fs.ids⟩
    if new_comps.isEmpty then (fs1, [], none)
    else
      (⟨fs1.comps, some (store_comp_ids (old_comp_ids ++ new_comps.map Competition.cid))⟩,
        [notify_new_comps icon new_comps.length], none)

/-- The line-list produced by `store_comp_details` before joining: every
header line refreshed in place, a fresh header inserted at the top when no
line carries the marker. -/
def headerPass (now : List Char) (s : List Char) : List (List Char) :=
  let lines := (splitOnNl s).map (replaceHeaderLine now)
  if lines.any (fun ln => FIRST_LINE.isPrefixOf ln) then lines
  else headerInserted now :: lines

/-! ## Definitions written from the specification wording, for comparison
with the code -/

/-- The filter as the specification words it: keep a competition exactly
when its registration-close timestamp is absent or unparseable or STRICTLY
in the future relative to now, and its identifier is not among the seen
ids. -/
def specFilterStrict (comps : List Competition) (seen : List (List Char))
    (now : PyDateTime) : List Competition :=
  comps.filter (fun c =>
    (match strptimeWCA c.registration_close with
     | none => true
     | some dt => pyDTlt now dt) && !(seen.contains c.cid))

/-- The filter with the strictness corrected to match the code: keep a
competition exactly when its registration-close timestamp is absent or
unparseable or NOT strictly in the past relative to now (a close time equal
to now is kept), and its identifier is not among the seen ids. -/
def specFilterNotPast (comps : List Competition) (seen : List (List Char))
    (now : PyDateTime) : List Competition :=
  comps.filter (fun c =>
    (match strptimeWCA c.registration_close with
     | none => true
     | some dt => !(pyDTlt dt now)) && !(seen.contains c.cid))

/-- The notification argument vector the specification describes for a
count of one: singular noun and singular verb. -/
def specSingularCall (icon : List Char) (n : Nat) : List (List Char) :=
  [str "notify-send", str "--icon", icon,
    str "WCA competition",
    natStr n ++ str " new competition has been announced in Canada."]

/-- The notification argument vector the specification describes for a
count of two or more: plural noun and plural verb. -/
def specPluralCall (icon : List Char) (n : Nat) : List (List Char) :=
  [str "notify-send", str "--icon", icon,
    str "WCA competitions",
    natStr n ++ str " new competitions have been announced in Canada."]

/-- A competition whose registration-close timestamp parses to exactly the
injected current time: the boundary case between open and closed. -/
def boundaryComp : Competition :=
  ⟨str "Boundary2024", str "Boundary Comp 2024", str "https://example.org",
    str "Ottawa, Ontario", str "2024-01-01T00:00:00.000000Z",
    str "2024-05-01T00:00:00.000000Z", str "2024-06-01T00:00:00.000000Z",
    str "2024-07-01", str "2024-07-02"⟩

/-- The instant the boundary competition closes. -/
def boundaryNow : PyDateTime := ⟨2024, 6, 1, 0, 0, 0, 0⟩

/-! ## Membership in the stable sort -/

theorem mem_insortBy {a : Type} {le : a → a → Bool} {x z : a} {l : List a} :
    z ∈ insortBy le x l ↔ z = x ∨ z ∈ l := by
  induction l with
  | nil => simp [insortBy]
  | cons y ys ih =>
    rw [insortBy]
    split
    · simp
    · rw [List.mem_cons, ih, List.mem_cons]
      tauto

theorem mem_sortBy {a : Type} {le : a → a → Bool} {z : a} {l : List a} :
    z ∈ sortBy le l ↔ z ∈ l := by
  induction l with
  | nil => simp [sortBy]
  | cons y ys ih =>
    rw [sortBy, List.foldr_cons, mem_insortBy]
    rw [sortBy] at ih
    rw [ih, List.mem_cons]

/-! ## Lemmas about splitting and joining on newlines -/

theorem splitOnNl_ne_nil (s : List Char) : splitOnNl s ≠ [] := by
  cases s with
  | nil => simp [splitOnNl]
  | cons c cs =>
    by_cases h : c = '\n'
    · simp [splitOnNl, h]
    · simp only [splitOnNl, if_neg h]
      cases splitOnNl cs <;> simp

theorem splitOnNl_cons_nl (cs : List Char) : splitOnNl ('\n' :: cs) = [] :: splitOnNl cs := by
  simp [splitOnNl]

theorem splitOnNl_cons_ne (c : Char) (cs : List Char) (h : c ≠ '\n') :
    splitOnNl (c :: cs) = (c :: (splitOnNl cs).headD []) :: (splitOnNl cs).tail := by
  simp only [splitOnNl, if_neg h]
  cases hh : splitOnNl cs with
  | nil => exact absurd hh (splitOnNl_ne_nil cs)
  | cons r rs => simp

theorem splitOnNl_no_nl (s : List Char) (h : '\n' ∉ s) : splitOnNl s = [s] := by
  induction s with
  | nil => simp [splitOnNl]
  | cons c cs ih =>
    have hc : c ≠ '\n' := fun e => h (e ▸ List.mem_cons_self c cs)
    rw [splitOnNl_cons_ne c cs hc, ih (fun hm => h (List.mem_cons_of_mem _ hm))]
    simp

theorem splitOnNl_append_nl (xs ys : List Char) :
    splitOnNl (xs ++ '\n' :: ys) = splitOnNl xs ++ splitOnNl ys := by
  induction xs with
  | nil => simp [splitOnNl_cons_nl, splitOnNl]
  | cons c cs ih =>
    by_cases hc : c = '\n'
    · subst hc
      simp only [List.cons_append, splitOnNl_cons_nl, ih]
    · rw [List.cons_append, splitOnNl_cons_ne c _ hc, splitOnNl_cons_ne c cs hc, ih]
      cases hh : splitOnNl cs with
      | nil => exact absurd hh (splitOnNl_ne_nil cs)
      | cons r rs => simp

theorem joinNl_cons (x : List Char) (ys : List (List Char)) (h : ys ≠ []) :
    joinNl (x :: ys) = x ++ '\n' :: joinNl ys := by
  cases ys with
  | nil => exact absurd rfl h
  | cons y ys => rfl

theorem joinNl_splitOnNl (s : List Char) : joinNl (splitOnNl s) = s := by
  induction s with
  | nil => rfl
  | cons c cs ih =>
    by_cases hc : c = '\n'
    · subst hc
      rw [splitOnNl_cons_nl, joinNl_cons _ _ (splitOnNl_ne_nil cs), ih]
      simp
    · rw [splitOnNl_cons_ne c cs hc]
      cases hh : splitOnNl cs with
      | nil => exact absurd hh (splitOnNl_ne_nil cs)
      | cons r rs =>
        simp only [List.headD_cons, List.tail_cons]
        cases rs with
        | nil =>
          have hr : r = cs := by rw [hh] at ih; simpa [joinNl] using ih
          simp [joinNl, hr]
        | cons r2 rs2 =>
          rw [joinNl_cons _ _ (by simp)]
          rw [hh, joinNl_cons _ _ (by simp)] at ih
          simpa using congrArg (c :: ·) ih

theorem splitOnNl_joinNl (L : List (List Char)) (h : L ≠ [])
    (hnl : ∀ x ∈ L, '\n' ∉ x) : splitOnNl (joinNl L) = L := by
  induction L with
  | nil => exact absurd rfl h
  | cons x ys ih =>
    cases ys with
    | nil => simp [joinNl, splitOnNl_no_nl x (hnl x (by simp))]
    | cons y ys2 =>
      rw [joinNl_cons _ _ (by simp), splitOnNl_append_nl,
        splitOnNl_no_nl x (hnl x (by simp)),
        ih (by simp) (fun z hz => hnl z (List.mem_cons_of_mem _ hz))]
      rfl

theorem mem_splitOnNl_joinNl {x : List Char} {L : List (List Char)} (hx : x ∈ L)
    (hnl : '\n' ∉ x) : x ∈ splitOnNl (joinNl L) := by
  induction L with
  | nil => cases hx
  | cons p ps ih =>
    cases ps with
    | nil =>
      have : x = p := by simpa using hx
      subst this
      simp [joinNl, splitOnNl_no_nl x hnl]
    | cons q qs =>
      rw [joinNl_cons _ _ (by simp), splitOnNl_append_nl]
      rcases List.mem_cons.mp hx with h | h
      · subst h
        rw [splitOnNl_no_nl x hnl]
        simp
      · exact List.mem_append_right _ (ih h)

theorem headD_mem_splitOnNl (s : List Char) : (splitOnNl s).headD [] ∈ splitOnNl s := by
  cases hh : splitOnNl s with
  | nil => exact absurd hh (splitOnNl_ne_nil s)
  | cons r rs => simp

theorem not_nl_mem_of_mem_splitOnNl {line s : List Char} (h : line ∈ splitOnNl s) :
    '\n' ∉ line := by
  induction s generalizing line with
  | nil =>
    have : line = [] := by simpa [splitOnNl] using h
    simp [this]
  | cons c cs ih =>
    by_cases hc : c = '\n'
    · subst hc
      rw [splitOnNl_cons_nl] at h
      rcases List.mem_cons.mp h with h | h
      · simp [h]
      · exact ih h
    · rw [splitOnNl_cons_ne c cs hc] at h
      rcases List.mem_cons.mp h with h | h
      · subst h
        intro hm
        rcases List.mem_cons.mp hm with h | h
        · exact hc h.symm
        · exact ih (headD_mem_splitOnNl cs) h
      · exact ih (List.mem_of_mem_tail h)

/-! ## Lemmas about stripping -/

theorem lstripPy_cons_of_space {c : Char} (cs : List Char) (h : isPySpace c = true) :
    lstripPy (c :: cs) = lstripPy cs := by
  simp [lstripPy, List.dropWhile_cons, h]

theorem lstripPy_cons_of_not_space {c : Char} (cs : List Char) (h : isPySpace c = false) :
    lstripPy (c :: cs) = c :: cs := by
  simp [lstripPy, List.dropWhile_cons, h]

theorem rstripPy_concat_of_space {c : Char} (A : List Char) (h : isPySpace c = true) :
    rstripPy (A ++ [c]) = rstripPy A := by
  simp [rstripPy, List.dropWhile_cons, h]

theorem rstripPy_concat_of_not_space {c : Char} (A : List Char) (h : isPySpace c = false) :
    rstripPy (A ++ [c]) = A ++ [c] := by
  simp [rstripPy, List.dropWhile_cons, h]

theorem rstripPy_append_spaces (A w : List Char) (hw : ∀ c ∈ w, isPySpace c = true) :
    rstripPy (A ++ w) = rstripPy A := by
  have hd : List.dropWhile isPySpace w.reverse = [] :=
    List.dropWhile_eq_nil_iff.mpr (fun x hx => hw x (List.mem_reverse.mp hx))
  simp [rstripPy, List.dropWhile_append, hd]

theorem pyStrip_append_spaces (A w : List Char) (hw : ∀ c ∈ w, isPySpace c = true) :
    pyStrip (A ++ w) = pyStrip A := by
  simp [pyStrip, rstripPy_append_spaces A w hw]

theorem rstripPy_decomp (s : List Char) :
    ∃ w, s = rstripPy s ++ w ∧ ∀ c ∈ w, isPySpace c = true := by
  refine ⟨(s.reverse.takeWhile isPySpace).reverse, ?_, ?_⟩
  · have h := List.takeWhile_append_dropWhile isPySpace s.reverse
    have h2 := congrArg List.reverse h
    simp only [List.reverse_append, List.reverse_reverse] at h2
    exact h2.symm
  · intro c hc
    exact List.mem_takeWhile_imp (List.mem_reverse.mp hc)

theorem lstripPy_decomp (s : List Char) :
    ∃ w, s = w ++ lstripPy s ∧ ∀ c ∈ w, isPySpace c = true := by
  exact ⟨s.takeWhile isPySpace, (List.takeWhile_append_dropWhile isPySpace s).symm,
    fun c hc => List.mem_takeWhile_imp hc⟩

theorem head_lstripPy_not_space (s : List Char) (h : lstripPy s ≠ []) :
    isPySpace ((lstripPy s).headD 'a') = false := by
  induction s with
  | nil => exact absurd rfl h
  | cons c cs ih =>
    by_cases hc : isPySpace c
    · rw [lstripPy_cons_of_space cs hc] at h ⊢
      exact ih h
    · rw [lstripPy_cons_of_not_space cs (by simpa using hc)]
      simpa using hc

theorem getLast_rstripPy_not_space (s : List Char) (h : rstripPy s ≠ []) :
    isPySpace ((rstripPy s).getLastD 'a') = false := by
  have h2 : (s.reverse.dropWhile isPySpace) ≠ [] := by
    intro he
    apply h
    simp [rstripPy, he]
  have h3 : isPySpace ((s.reverse.dropWhile isPySpace).headD 'a') = false :=
    head_lstripPy_not_space s.reverse h2
  rw [List.getLastD_eq_getLast?, rstripPy, List.getLast?_reverse]
  rwa [List.headD_eq_head?] at h3

theorem lstripPy_eq_self (s : List Char) (h : isPySpace (s.headD 'a') = false) :
    lstripPy s = s := by
  cases s with
  | nil => rfl
  | cons c cs => exact lstripPy_cons_of_not_space cs (by simpa using h)

theorem rstripPy_eq_self (s : List Char) (h : isPySpace (s.getLastD 'a') = false) :
    rstripPy s = s := by
  rcases List.eq_nil_or_concat s with hs | ⟨A, c, hs⟩
  · simp [hs, rstripPy]
  · rw [List.concat_eq_append] at hs
    subst hs
    refine rstripPy_concat_of_not_space A ?_
    simpa [List.getLastD_eq_getLast?, List.getLast?_concat] using h

theorem getLast_lstripPy (s : List Char) (h : lstripPy s ≠ []) :
    (lstripPy s).getLastD 'a' = s.getLastD 'a' := by
  rcases lstripPy_decomp s with ⟨w, hw, _⟩
  conv_rhs => rw [hw]
  rw [List.getLastD_eq_getLast?, List.getLastD_eq_getLast?,
    List.getLast?_append_of_ne_nil w h]

theorem pyStrip_eq_self (s : List Char) (hh : isPySpace (s.headD 'a') = false)
    (hl : isPySpace (s.getLastD 'a') = false) : pyStrip s = s := by
  rw [pyStrip, rstripPy_eq_self s hl, lstripPy_eq_self s hh]

theorem head_pyStrip_not_space (s : List Char) (h : pyStrip s ≠ []) :
    isPySpace ((pyStrip s).headD 'a') = false :=
  head_lstripPy_not_space (rstripPy s) h

theorem getLast_pyStrip_not_space (s : List Char) (h : pyStrip s ≠ []) :
    isPySpace ((pyStrip s).getLastD 'a') = false := by
  rw [pyStrip] at h ⊢
  have hr : rstripPy s ≠ [] := by
    intro he
    apply h
    simp [he, lstripPy]
  rw [getLast_lstripPy (rstripPy s) h]
  exact getLast_rstripPy_not_space s hr

theorem pyStrip_idem (s : List Char) : pyStrip (pyStrip s) = pyStrip s := by
  by_cases h : pyStrip s = []
  · rw [h]; rfl
  · exact pyStrip_eq_self _ (head_pyStrip_not_space s h) (getLast_pyStrip_not_space s h)

theorem mem_of_mem_rstripPy {c : Char} {s : List Char} (h : c ∈ rstripPy s) : c ∈ s := by
  rw [rstripPy] at h
  have := (List.dropWhile_sublist (l := s.reverse) isPySpace).mem (List.mem_reverse.mp h)
  exact List.mem_reverse.mp this

theorem mem_of_mem_pyStrip {c : Char} {s : List Char} (h : c ∈ pyStrip s) : c ∈ s :=
  mem_of_mem_rstripPy ((List.dropWhile_sublist isPySpace).mem h)

theorem not_nl_pyStrip {s : List Char} (h : '\n' ∉ s) : '\n' ∉ pyStrip s :=
  fun hm => h (mem_of_mem_pyStrip hm)

/-! ## Generic helpers about last elements -/

theorem getLastD_irrel (L : List (List Char)) (h : L ≠ []) (d1 d2 : List Char) :
    L.getLastD d1 = L.getLastD d2 := by
  rcases List.eq_nil_or_concat L with h0 | ⟨A, b, h0⟩
  · exact absurd h0 h
  · rw [List.concat_eq_append] at h0
    subst h0
    simp [List.getLastD_concat]

theorem getLastD_mem (L : List (List Char)) (h : L ≠ []) (d : List Char) :
    L.getLastD d ∈ L := by
  rcases List.eq_nil_or_concat L with h0 | ⟨A, b, h0⟩
  · exact absurd h0 h
  · rw [List.concat_eq_append] at h0
    subst h0
    simp [List.getLastD_concat]

theorem mem_dropLast {x : List Char} {L : List (List Char)} (h : x ∈ L.dropLast) : x ∈ L :=
  (List.dropLast_sublist L).mem h

/-! ## Splitting a text that ends with one more character -/

theorem splitOnNl_concat_nl (xs : List Char) :
    splitOnNl (xs ++ ['\n']) = splitOnNl xs ++ [[]] := by
  have h := splitOnNl_append_nl xs []
  simpa [splitOnNl] using h

theorem splitOnNl_concat_ne (xs : List Char) (c : Char) (h : c ≠ '\n') :
    splitOnNl (xs ++ [c]) =
      (splitOnNl xs).dropLast ++ [(splitOnNl xs).getLastD [] ++ [c]] := by
  induction xs with
  | nil => simp [splitOnNl, splitOnNl_cons_ne, h]
  | cons a as ih =>
    by_cases ha : a = '\n'
    · subst ha
      rw [List.cons_append, splitOnNl_cons_nl, splitOnNl_cons_nl, ih]
      cases hh : splitOnNl as with
      | nil => exact absurd hh (splitOnNl_ne_nil as)
      | cons r rs => simp [List.getLastD_cons]
    · rw [List.cons_append, splitOnNl_cons_ne a _ ha, splitOnNl_cons_ne a as ha, ih]
      cases hh : splitOnNl as with
      | nil => exact absurd hh (splitOnNl_ne_nil as)
      | cons r rs =>
        cases rs with
        | nil => simp
        | cons r2 rs2 =>
          simp only [List.getLastD_cons, List.dropLast_cons₂, List.headD_cons,
            List.tail_cons, List.cons_append]

/-! ## Line membership survives stripping -/

theorem mem_splitOnNl_lstripPy {line s : List Char} (h : line ∈ splitOnNl s)
    (hne : line ≠ []) (hh : isPySpace (line.headD 'a') = false) :
    line ∈ splitOnNl (lstripPy s) := by
  induction s with
  | nil =>
    have : line = [] := by simpa [splitOnNl] using h
    exact absurd this hne
  | cons c cs ih =>
    by_cases hc : isPySpace c
    · rw [lstripPy_cons_of_space cs hc]
      by_cases hcn : c = '\n'
      · subst hcn
        rw [splitOnNl_cons_nl] at h
        rcases List.mem_cons.mp h with h | h
        · exact absurd h hne
        · exact ih h
      · rw [splitOnNl_cons_ne c cs hcn] at h
        rcases List.mem_cons.mp h with h | h
        · rw [h, List.headD_cons] at hh
          exact absurd hh (by simp [hc])
        · exact ih (List.mem_of_mem_tail h)
    · rw [lstripPy_cons_of_not_space cs (by simpa using hc)]
      exact h

theorem mem_splitOnNl_rstripPy {line s : List Char} (h : line ∈ splitOnNl s)
    (hne : line ≠ []) (hl : isPySpace (line.getLastD 'a') = false) :
    line ∈ splitOnNl (rstripPy s) := by
  induction s using List.reverseRecOn with
  | nil =>
    have : line = [] := by simpa [splitOnNl] using h
    exact absurd this hne
  | append_singleton A c ih =>
    by_cases hc : isPySpace c
    · rw [rstripPy_concat_of_space A hc]
      by_cases hcn : c = '\n'
      · subst hcn
        rw [splitOnNl_concat_nl] at h
        rcases List.mem_append.mp h with h | h
        · exact ih h
        · exact absurd (by simpa using h) hne
      · rw [splitOnNl_concat_ne A c hcn] at h
        rcases List.mem_append.mp h with h | h
        · exact ih (mem_dropLast h)
        · have he : line = (splitOnNl A).getLastD [] ++ [c] := by simpa using h
          rw [he, List.getLastD_eq_getLast?, List.getLast?_concat] at hl
          exact absurd hl (by simp [hc])
    · rw [rstripPy_concat_of_not_space A (by simpa using hc)]
      exact h

theorem mem_splitOnNl_pyStrip {line s : List Char} (h : line ∈ splitOnNl s)
    (hne : line ≠ []) (hh : isPySpace (line.headD 'a') = false)
    (hl : isPySpace (line.getLastD 'a') = false) :
    line ∈ splitOnNl (pyStrip s) :=
  mem_splitOnNl_lstripPy (mem_splitOnNl_rstripPy h hne hl) hne hh

/-! ## First and last lines -/

theorem headD_splitOnNl_append (p q : List Char) (h : '\n' ∉ p) :
    (splitOnNl (p ++ q)).headD [] = p ++ (splitOnNl q).headD [] := by
  induction p with
  | nil => simp
  | cons c cs ih =>
    have hc : c ≠ '\n' := fun e => h (e ▸ List.mem_cons_self c cs)
    rw [List.cons_append, splitOnNl_cons_ne c _ hc, List.headD_cons,
      ih (fun hm => h (List.mem_cons_of_mem _ hm)), List.cons_append]

theorem getLastD_splitOnNl (s : List Char) (hne : s ≠ [])
    (h : s.getLastD 'a' ≠ '\n') :
    ∃ r, (splitOnNl s).getLastD [] = r ++ [s.getLastD 'a'] := by
  rcases List.eq_nil_or_concat s with h0 | ⟨A, c, h0⟩
  · exact absurd h0 hne
  · rw [List.concat_eq_append] at h0
    subst h0
    have hc : c ≠ '\n' := by simpa [List.getLastD_eq_getLast?, List.getLast?_concat] using h
    refine ⟨(splitOnNl A).getLastD [], ?_⟩
    rw [splitOnNl_concat_ne A c hc, List.getLastD_eq_getLast?, List.getLast?_concat]
    simp [List.getLastD_eq_getLast?, List.getLast?_concat]

/-! ## First and last characters of a joined line list -/

theorem headD_joinNl (x : List Char) (ys : List (List Char)) (hx : x ≠ []) (d : Char) :
    (joinNl (x :: ys)).headD d = x.headD d := by
  cases x with
  | nil => exact absurd rfl hx
  | cons c cs =>
    cases ys with
    | nil => rfl
    | cons y ys2 =>
      rw [joinNl_cons _ _ (by simp)]
      simp

theorem joinNl_concat_ne_nil (A : List (List Char)) (z : List Char) (hz : z ≠ []) :
    joinNl (A ++ [z]) ≠ [] := by
  cases A with
  | nil => simpa [joinNl] using hz
  | cons a A2 =>
    rw [List.cons_append, joinNl_cons _ _ (by simp)]
    simp

theorem getLast?_joinNl_concat (A : List (List Char)) (z : List Char) (hz : z ≠ []) :
    (joinNl (A ++ [z])).getLast? = z.getLast? := by
  induction A with
  | nil => simp [joinNl]
  | cons a A2 ih =>
    rw [List.cons_append, joinNl_cons _ _ (by simp),
      List.getLast?_append_of_ne_nil a (by simp)]
    rw [show ('\n' :: joinNl (A2 ++ [z])) = ['\n'] ++ joinNl (A2 ++ [z]) from rfl,
      List.getLast?_append_of_ne_nil _ (joinNl_concat_ne_nil A2 z hz)]
    exact ih

/-! ## The header pass of the summary rewrite -/

theorem store_comp_details_eq (comps : List Competition) (now : List Char)
    (oldFile : Option (List Char)) :
    store_comp_details comps now oldFile =
      pyStrip (joinNl (headerPass now (oldFile.getD []))) ++ str "\n\n" ++
        joinBlank ((sortBy (fun a b => lexLe a.announced_at b.announced_at)
          comps).map renderComp) ++
        str "\n" := rfl

theorem mem_headerPass_of_not_marker {ln : List Char} {s : List Char} (now : List Char)
    (h : ln ∈ splitOnNl s) (hm : FIRST_LINE.isPrefixOf ln = false) :
    ln ∈ headerPass now s := by
  have h1 : ln ∈ (splitOnNl s).map (replaceHeaderLine now) := by
    refine List.mem_map.mpr ⟨ln, h, ?_⟩
    simp [replaceHeaderLine, hm]
  rw [headerPass]
  split
  · exact h1
  · exact List.mem_cons_of_mem _ h1

theorem marker_mem_headerPass (now : List Char) (s : List Char) :
    ∃ ln ∈ headerPass now s, FIRST_LINE.isPrefixOf ln = true ∧
      (ln = headerReplaced now ∨ ln = headerInserted now) := by
  rw [headerPass]
  split
  · next hany =>
    rcases List.any_eq_true.mp hany with ⟨ln0, hmem, hpref⟩
    rcases List.mem_map.mp hmem with ⟨x, hx, hrep⟩
    by_cases hxm : FIRST_LINE.isPrefixOf x
    · refine ⟨ln0, hmem, hpref, Or.inl ?_⟩
      rw [← hrep]
      simp [replaceHeaderLine, hxm]
    · exfalso
      rw [← hrep] at hpref
      simp [replaceHeaderLine, hxm] at hpref
  · refine ⟨headerInserted now, List.mem_cons_self _ _, ?_, Or.inr rfl⟩
    rw [headerInserted, List.append_assoc]
    exact List.isPrefixOf_iff_prefix.mpr (List.prefix_append _ _)

theorem marker_shape_headerPass {ln : List Char} {s : List Char} (now : List Char)
    (h : ln ∈ headerPass now s) (hm : FIRST_LINE.isPrefixOf ln = true) :
    ln = headerReplaced now ∨ ln = headerInserted now := by
  rw [headerPass] at h
  have hmap : ∀ x ∈ (splitOnNl s).map (replaceHeaderLine now),
      FIRST_LINE.isPrefixOf x = true → x = headerReplaced now := by
    intro x hx hxp
    rcases List.mem_map.mp hx with ⟨y, hy, hrep⟩
    by_cases hym : FIRST_LINE.isPrefixOf y
    · rw [← hrep]; simp [replaceHeaderLine, hym]
    · exfalso
      rw [← hrep] at hxp
      simp [replaceHeaderLine, hym] at hxp
  revert h
  split
  · intro h
    exact Or.inl (hmap ln h hm)
  · intro h
    rcases List.mem_cons.mp h with h | h
    · exact Or.inr h
    · exact Or.inl (hmap ln h hm)

/-! ## Helper facts about loaded ids -/

theorem get_old_comp_ids_clean (idsFile : Option (List Char)) (x : List Char)
    (h : x ∈ get_old_comp_ids idsFile) : x ≠ [] ∧ '\n' ∉ x ∧ pyStrip x = x := by
  cases idsFile with
  | none => simp [get_old_comp_ids] at h
  | some txt =>
    rw [get_old_comp_ids] at h
    rcases List.mem_filter.mp h with ⟨hmem, hne⟩
    rcases List.mem_map.mp hmem with ⟨ln, hln, hx⟩
    subst hx
    refine ⟨fun he => ?_, not_nl_pyStrip (not_nl_mem_of_mem_splitOnNl hln), pyStrip_idem ln⟩
    rw [he] at hne
    simp at hne

theorem filter_map_strip_of_clean (L : List (List Char))
    (h : ∀ x ∈ L, x ≠ [] ∧ pyStrip x = x) :
    (L.map pyStrip).filter (fun x => !x.isEmpty) = L := by
  induction L with
  | nil => rfl
  | cons z zs ih =>
    rcases h z (List.mem_cons_self z zs) with ⟨hz, hzs⟩
    rw [List.map_cons, List.filter_cons]
    rw [hzs]
    have : (!z.isEmpty) = true := by
      cases z with
      | nil => exact absurd rfl hz
      | cons a as => rfl
    rw [if_pos this, ih (fun x hx => h x (List.mem_cons_of_mem _ hx))]

/-! ## Claim C6 -/

/-- Claim C6: is_registration_closed never raises; when the
registration-close string does not parse under the expected format the
competition is treated as not closed (the function answers false). -/
theorem claim_C6 (c : Competition) (now : PyDateTime)
    (h : strptimeWCA c.registration_close = none) :
    is_registration_closed c now = false := by
  simp [is_registration_closed, h]

theorem witness_C6 :
    strptimeWCA (str "not-a-timestamp") = none ∧
      is_registration_closed
        ⟨str "X2025", str "X Comp", str "https://example.org", str "Somewhere",
          str "2024-01-01", str "open", str "not-a-timestamp", str "s", str "e"⟩
        ⟨2024, 1, 1, 0, 0, 0, 0⟩ = false :=
  ⟨by decide, claim_C6 _ _ (by decide)⟩

/-! ## Claim C10 -/

/-- Claim C10: loading the seen-id store strips every line and drops the
lines that are empty or whitespace-only, so every returned identifier is a
nonempty string equal to its own stripped form. -/
theorem claim_C10 (idsFile : Option (List Char)) (x : List Char)
    (h : x ∈ get_old_comp_ids idsFile) : x ≠ [] ∧ pyStrip x = x :=
  ⟨(get_old_comp_ids_clean idsFile x h).1, (get_old_comp_ids_clean idsFile x h).2.2⟩

theorem witness_C10 :
    str "a" ∈ get_old_comp_ids (some (str " a \n \nb")) ∧
      (str "a" ≠ [] ∧ pyStrip (str "a") = str "a") :=
  ⟨by decide, claim_C10 (some (str " a \n \nb")) (str "a") (by decide)⟩

/-! ## Claim C7 -/

/-- Claim C7: a non-2xx response makes the fetch raise, the run aborts, no
notification is sent, and both persisted files keep their previous
contents. -/
theorem claim_C7 (status : Nat) (body : List Competition) (now : PyDateTime)
    (nowStr icon : List Char) (fs : FileState) (h : status / 100 ≠ 2) :
    runMain status body now nowStr icon fs =
      (fs, [], some (PyErr.valueError (str "Request to " ++ wcaURL ++
        str " failed with status " ++ natStr status ++ str "."))) := by
  simp [runMain, get_canadian_comps, h]

theorem witness_C7 :
    500 / 100 ≠ 2 ∧
      runMain 500 [boundaryComp] boundaryNow (str "T") (str "icon")
          ⟨some (str "old doc"), some (str "OldId")⟩ =
        (⟨some (str "old doc"), some (str "OldId")⟩, [],
          some (PyErr.valueError (str "Request to " ++ wcaURL ++
            str " failed with status " ++ natStr 500 ++ str "."))) :=
  ⟨by decide, claim_C7 500 [boundaryComp] boundaryNow (str "T") (str "icon")
    ⟨some (str "old doc"), some (str "OldId")⟩ (by decide)⟩

/-! ## Claim C2 -/

/-- Counterexample to claim C2 as stated: a competition whose
registration-close timestamp parses to exactly the current instant is NOT
strictly in the future, yet the filter of main keeps it, so the output is
not the strictly-in-the-future subset the claim describes. -/
theorem cex_C2 :
    strptimeWCA boundaryComp.registration_close = some boundaryNow ∧
      mainFilter [boundaryComp] [] boundaryNow = [boundaryComp] ∧
      specFilterStrict [boundaryComp] [] boundaryNow = [] ∧
      mainFilter [boundaryComp] [] boundaryNow ≠
        specFilterStrict [boundaryComp] [] boundaryNow := by
  refine ⟨by decide, by decide, by decide, by decide⟩

/-- Claim C2, amended: the filter of main produces exactly the subset whose
registration-close timestamp is absent or unparseable or NOT strictly in
the past (a close time equal to now is kept, which is the one deviation
from the claimed strictly-in-the-future wording), and whose identifier is
not in the seen set; in particular no member of the output carries a seen
identifier. -/
theorem claim_C2 (comps : List Competition) (seen : List (List Char))
    (now : PyDateTime) :
    mainFilter comps seen now = specFilterNotPast comps seen now ∧
      ∀ c ∈ mainFilter comps seen now, seen.contains c.cid = false := by
  constructor
  · rw [mainFilter, specFilterNotPast]
    apply List.filter_congr
    intro c hc
    cases h : strptimeWCA c.registration_close <;>
      simp [is_registration_closed, h]
  · intro c hc
    rw [mainFilter] at hc
    have hcond := (List.mem_filter.mp hc).2
    cases hcc : seen.contains c.cid
    · rfl
    · rw [hcc] at hcond
      simp at hcond

theorem witness_C2 :
    mainFilter [boundaryComp] [str "Seen1"] boundaryNow =
        specFilterNotPast [boundaryComp] [str "Seen1"] boundaryNow ∧
      [str "Seen1"].contains boundaryComp.cid = false :=
  ⟨(claim_C2 [boundaryComp] [str "Seen1"] boundaryNow).1,
    (claim_C2 [boundaryComp] [str "Seen1"] boundaryNow).2 boundaryComp (by decide)⟩

/-! ## Claim C8 -/

/-- Claim C8: the notifier is invoked only when the filtered list is
nonempty, hence only with a count of at least one, and the notification
text uses singular grammar exactly for a count of one and plural grammar
for every larger count. -/
theorem claim_C8 (status : Nat) (body : List Competition) (now : PyDateTime)
    (nowStr icon : List Char) (fs : FileState) :
    ((runMain status body now nowStr icon fs).2.1 = [] ∨
      ∃ k, 1 ≤ k ∧
        (runMain status body now nowStr icon fs).2.1 = [notify_new_comps icon k]) ∧
    (∀ n, n = 1 → notify_new_comps icon n = specSingularCall icon n) ∧
    (∀ n, 2 ≤ n → notify_new_comps icon n = specPluralCall icon n) := by
  refine ⟨?_, ?_, ?_⟩
  · rw [runMain]
    cases get_canadian_comps status body with
    | error e => exact Or.inl rfl
    | ok comps =>
      simp only
      split
      · exact Or.inl rfl
      · next hemp =>
        refine Or.inr ⟨(mainFilter comps (get_old_comp_ids fs.ids) now).length, ?_, rfl⟩
        have : mainFilter comps (get_old_comp_ids fs.ids) now ≠ [] := by
          intro he
          rw [he] at hemp
          simp at hemp
        exact List.length_pos.mpr this
  · intro n h1
    subst h1
    rfl
  · intro n h2
    have hne : n ≠ 1 := by omega
    simp only [notify_new_comps, specPluralCall, if_neg hne]
    have h4 : str "WCA " ++ str "competitions" = str "WCA competitions" := by decide
    have h5 : ∀ m : List Char,
        m ++ str " new " ++ str "competitions" ++ str " " ++ str "have" ++
          str " been announced in Canada." =
        m ++ str " new competitions have been announced in Canada." := by
      intro m
      simp only [List.append_assoc]
      exact congrArg (m ++ ·) (by decide)
    rw [h4, h5]

theorem witness_C8 :
    notify_new_comps (str "icon") 1 = specSingularCall (str "icon") 1 ∧
      notify_new_comps (str "icon") 2 = specPluralCall (str "icon") 2 :=
  ⟨(claim_C8 200 [] boundaryNow (str "T") (str "icon") ⟨none, none⟩).2.1 1 rfl,
    (claim_C8 200 [] boundaryNow (str "T") (str "icon") ⟨none, none⟩).2.2 2 (by omega)⟩

/-! ## Claim C3 -/

/-- Counterexample to claim C3 as stated: for the id list containing the
two strings `a` followed by a space and `a`, storing and loading does not
return the sorted deduplicated form of the list: the trailing space is
stripped on load, so the loaded list is `a`, `a`. -/
theorem cex_C3 :
    get_old_comp_ids (some (store_comp_ids [str "a ", str "a"])) =
        [str "a", str "a"] ∧
      sortedSetIds [str "a ", str "a"] = [str "a", str "a "] ∧
      get_old_comp_ids (some (store_comp_ids [str "a ", str "a"])) ≠
        sortedSetIds [str "a ", str "a"] := by
  refine ⟨by decide, by decide, by decide⟩

/-- Claim C3, amended: for every list of ids whose elements are nonempty,
contain no newline, and are equal to their own stripped form, storing and
then loading yields exactly the sorted deduplicated form of the list. -/
theorem claim_C3 (ids : List (List Char))
    (h : ∀ x ∈ ids, x ≠ [] ∧ '\n' ∉ x ∧ pyStrip x = x) :
    get_old_comp_ids (some (store_comp_ids ids)) = sortedSetIds ids := by
  have hall : ∀ x ∈ sortedSetIds ids, x ≠ [] ∧ '\n' ∉ x ∧ pyStrip x = x := by
    intro x hx
    exact h x (List.mem_dedup.mp (mem_sortBy.mp hx))
  rw [get_old_comp_ids, store_comp_ids]
  cases hL : sortedSetIds ids with
  | nil => rfl
  | cons z zs =>
    rw [splitOnNl_joinNl (z :: zs) (by simp)
      (fun x hx => (hall x (hL ▸ hx)).2.1)]
    exact filter_map_strip_of_clean (z :: zs)
      (fun x hx => ⟨(hall x (hL ▸ hx)).1, (hall x (hL ▸ hx)).2.2⟩)

theorem witness_C3 :
    get_old_comp_ids (some (store_comp_ids [str "b", str "a", str "b"])) =
      sortedSetIds [str "b", str "a", str "b"] :=
  claim_C3 [str "b", str "a", str "b"] (by decide)

/-! ## Claim C4 -/

/-- Claim C4: the persisted seen-id set never loses an identifier: whatever
run main performs, every id readable before the run is readable after it. -/
theorem claim_C4 (status : Nat) (body : List Competition) (now : PyDateTime)
    (nowStr icon : List Char) (fs : FileState) (x : List Char)
    (h : x ∈ get_old_comp_ids fs.ids) :
    x ∈ get_old_comp_ids (runMain status body now nowStr icon fs).1.ids := by
  rcases get_old_comp_ids_clean fs.ids x h with ⟨hne, hnl, hstrip⟩
  rw [runMain]
  cases get_canadian_comps status body with
  | error e => exact h
  | ok comps =>
    simp only
    split
    · exact h
    · show x ∈ get_old_comp_ids (some (store_comp_ids _))
      rw [get_old_comp_ids, store_comp_ids]
      have hx : x ∈ sortedSetIds (get_old_comp_ids fs.ids ++
          (mainFilter comps (get_old_comp_ids fs.ids) now).map Competition.cid) :=
        mem_sortBy.mpr (List.mem_dedup.mpr (List.mem_append_left _ h))
      have hj := mem_splitOnNl_joinNl hx hnl
      refine List.mem_filter.mpr ⟨List.mem_map.mpr ⟨x, hj, hstrip⟩, ?_⟩
      cases x with
      | nil => exact absurd rfl hne
      | cons a as => rfl

theorem witness_C4 :
    str "OldComp2023" ∈
        get_old_comp_ids (FileState.mk none (some (str "OldComp2023"))).ids ∧
      str "OldComp2023" ∈
        get_old_comp_ids (runMain 200 [boundaryComp] boundaryNow (str "T")
          (str "icon") ⟨none, some (str "OldComp2023")⟩).1.ids :=
  ⟨by decide, claim_C4 200 [boundaryComp] boundaryNow (str "T") (str "icon")
    ⟨none, some (str "OldComp2023")⟩ (str "OldComp2023") (by decide)⟩

/-! ## Facts about the header lines -/

theorem marker_ne_nil {ln : List Char} (h : FIRST_LINE.isPrefixOf ln = true) :
    ln ≠ [] := by
  intro he
  subst he
  exact absurd h (by decide)

theorem headD_marker {ln : List Char} (h : FIRST_LINE.isPrefixOf ln = true) :
    ln.headD 'a' = 'U' := by
  rcases List.isPrefixOf_iff_prefix.mp h with ⟨r, hr⟩
  have hu : FIRST_LINE = 'U' :: str "pcoming WCA events in Canada (in ~/wca.txt)" := by
    decide
  rw [← hr, hu, List.cons_append, List.headD_cons]

theorem marker_prefix_headerReplaced (t : List Char) :
    FIRST_LINE.isPrefixOf (headerReplaced t) = true := by
  rw [headerReplaced, List.append_assoc, List.append_assoc]
  exact List.isPrefixOf_iff_prefix.mpr (List.prefix_append _ _)

theorem marker_prefix_headerInserted (t : List Char) :
    FIRST_LINE.isPrefixOf (headerInserted t) = true := by
  rw [headerInserted, List.append_assoc]
  exact List.isPrefixOf_iff_prefix.mpr (List.prefix_append _ _)

theorem not_nl_headerReplaced {t : List Char} (h : '\n' ∉ t) :
    '\n' ∉ headerReplaced t := by
  rw [headerReplaced]
  simp only [List.mem_append]
  rintro (((hm | hm) | hm) | hm)
  · exact absurd hm (by decide)
  · exact absurd hm (by decide)
  · exact h hm
  · exact absurd hm (by decide)

theorem not_nl_headerInserted {t : List Char} (h : '\n' ∉ t) :
    '\n' ∉ headerInserted t := by
  rw [headerInserted]
  simp only [List.mem_append]
  rintro ((hm | hm) | hm)
  · exact absurd hm (by decide)
  · exact absurd hm (by decide)
  · exact h hm

theorem getLast_headerReplaced (t : List Char) :
    (headerReplaced t).getLastD 'a' = ':' := by
  rw [headerReplaced, List.getLastD_eq_getLast?,
    List.getLast?_append_of_ne_nil _ (by decide : str ":" ≠ [])]
  rfl

theorem getLast_headerInserted (t : List Char) (ht : t ≠ []) :
    (headerInserted t).getLastD 'a' = t.getLastD 'a' := by
  rw [headerInserted, List.getLastD_eq_getLast?,
    List.getLast?_append_of_ne_nil _ ht, List.getLastD_eq_getLast?]

/-! ## Appending after a string that ends in a non-space -/

theorem rstripPy_append_of_getLast (m r : List Char) (_hm : m ≠ [])
    (h : isPySpace (m.getLastD 'a') = false) :
    rstripPy (m ++ r) = m ++ rstripPy r := by
  have hds : List.dropWhile isPySpace m.reverse = m.reverse := by
    cases hmr : m.reverse with
    | nil => rfl
    | cons x xs =>
      have hx : x = m.getLastD 'a' := by
        have h1 := List.head?_reverse m
        rw [hmr] at h1
        rw [List.getLastD_eq_getLast?, ← h1]
        rfl
      have h2 : isPySpace (m.getLast?.getD 'a') = false := by
        rw [← List.getLastD_eq_getLast?]
        exact h
      simp [List.dropWhile_cons, hx, List.getLastD_eq_getLast?, h2]
  rw [rstripPy, rstripPy, List.reverse_append, List.dropWhile_append]
  by_cases hc : (r.reverse.dropWhile isPySpace).isEmpty
  · rw [if_pos hc, hds]
    have hz : r.reverse.dropWhile isPySpace = [] := by simpa using hc
    simp [hz]
  · rw [if_neg hc, List.reverse_append, List.reverse_reverse]

theorem rstripPy_prefix (s : List Char) : rstripPy s <+: s := by
  rcases rstripPy_decomp s with ⟨w, hw, _⟩
  exact ⟨w, hw.symm⟩

/-! ## The first line of the rewritten document -/

theorem headD_splitOnNl_hdr_nl (hdr rest : List Char) (hnl : '\n' ∉ hdr) :
    (splitOnNl (hdr ++ '\n' :: rest)).headD [] = hdr := by
  rw [splitOnNl_append_nl, splitOnNl_no_nl hdr hnl]
  rfl

theorem firstLine_strip_join (hdr : List Char) (LS : List (List Char)) (X : List Char)
    (hnl : '\n' ∉ hdr) (hne : hdr ≠ [])
    (hh : isPySpace (hdr.headD 'a') = false)
    (hl : isPySpace (hdr.getLastD 'a') = false) :
    (splitOnNl (pyStrip (joinNl (hdr :: LS)) ++ str "\n\n" ++ X ++ str "\n")).headD []
      = hdr := by
  have tail_eq : ∀ S : List Char, S ++ str "\n\n" ++ X ++ str "\n" =
      S ++ '\n' :: ('\n' :: (X ++ ['\n'])) := by
    intro S
    have hnn : str "\n\n" = ['\n', '\n'] := rfl
    have hn1 : str "\n" = ['\n'] := rfl
    rw [hnn, hn1]
    simp [List.append_assoc]
  cases LS with
  | nil =>
    have hj : joinNl [hdr] = hdr := rfl
    rw [hj, pyStrip_eq_self hdr hh hl, tail_eq hdr, headD_splitOnNl_hdr_nl hdr _ hnl]
  | cons L1 LS2 =>
    rw [joinNl_cons _ _ (by simp)]
    rw [pyStrip, rstripPy_append_of_getLast hdr _ hne hl]
    have hlstrip : lstripPy (hdr ++ rstripPy ('\n' :: joinNl (L1 :: LS2))) =
        hdr ++ rstripPy ('\n' :: joinNl (L1 :: LS2)) := by
      apply lstripPy_eq_self
      cases hdr with
      | nil => exact absurd rfl hne
      | cons c cs => simpa using hh
    rw [hlstrip]
    rcases rstripPy_prefix ('\n' :: joinNl (L1 :: LS2)) with ⟨w, hw⟩
    cases hR : rstripPy ('\n' :: joinNl (L1 :: LS2)) with
    | nil =>
      rw [List.append_nil, tail_eq hdr, headD_splitOnNl_hdr_nl hdr _ hnl]
    | cons a R2 =>
      have ha : a = '\n' := by
        rw [hR] at hw
        exact (List.cons.injEq _ _ _ _ ▸ congrArg id hw).1 ▸ rfl
      subst ha
      rw [tail_eq, List.append_assoc]
      rw [show ('\n' :: R2) ++ ('\n' :: ('\n' :: (X ++ ['\n']))) =
        '\n' :: (R2 ++ ('\n' :: ('\n' :: (X ++ ['\n'])))) from rfl]
      exact headD_splitOnNl_hdr_nl hdr _ hnl

/-! ## The two shapes of the header pass -/

theorem headerPass_no_marker (t d : List Char)
    (h : ∀ ln ∈ splitOnNl d, FIRST_LINE.isPrefixOf ln = false) :
    headerPass t d = headerInserted t :: splitOnNl d := by
  have hmap : (splitOnNl d).map (replaceHeaderLine t) = splitOnNl d := by
    have hgen : ∀ L : List (List Char), (∀ ln ∈ L, FIRST_LINE.isPrefixOf ln = false) →
        L.map (replaceHeaderLine t) = L := by
      intro L hL
      induction L with
      | nil => rfl
      | cons a as ih =>
        rw [List.map_cons, ih (fun x hx => hL x (List.mem_cons_of_mem _ hx))]
        have := hL a (List.mem_cons_self a as)
        simp [replaceHeaderLine, this]
    exact hgen _ h
  have hany : ¬ ((splitOnNl d).any (fun ln => FIRST_LINE.isPrefixOf ln) = true) := by
    intro hc
    rcases List.any_eq_true.mp hc with ⟨ln, hmem, hp⟩
    rw [h ln hmem] at hp
    cases hp
  rw [headerPass, hmap, if_neg hany]

theorem headerPass_first_marker (t d : List Char)
    (h : FIRST_LINE.isPrefixOf ((splitOnNl d).headD []) = true) :
    ∃ LS, headerPass t d = headerReplaced t :: LS := by
  cases hsd : splitOnNl d with
  | nil => exact absurd hsd (splitOnNl_ne_nil d)
  | cons fl rest =>
    rw [hsd, List.headD_cons] at h
    refine ⟨rest.map (replaceHeaderLine t), ?_⟩
    rw [headerPass, hsd, List.map_cons]
    rw [show replaceHeaderLine t fl = headerReplaced t from by
      simp [replaceHeaderLine, h]]
    have hc : ((headerReplaced t :: rest.map (replaceHeaderLine t)).any
        (fun ln => FIRST_LINE.isPrefixOf ln)) = true := by
      simp [marker_prefix_headerReplaced t]
    rw [if_pos hc]

/-! ## Claim C9 -/

/-- Counterexample to claim C9 as stated: with the very same timestamp
string, the header inserted into a document with no header line and the
header written over an existing header line differ: the replaced form
carries a trailing colon, the inserted form does not, so the two are not of
identical format apart from the timestamp value. -/
theorem cex_C9 :
    headerInserted (str "T") ≠ headerReplaced (str "T") ∧
      (splitOnNl (store_comp_details [] (str "T") none)).headD [] =
        headerInserted (str "T") ∧
      (splitOnNl (store_comp_details [] (str "T") (some FIRST_LINE))).headD [] =
        headerReplaced (str "T") := by
  refine ⟨by decide, by decide, by decide⟩

/-- Claim C9, amended: for a timestamp string with no newline, nonempty and
equal to its right-stripped form, the summary rewrite puts the marker plus
the phrase `as of` plus the timestamp plus a trailing colon over every
found header line (taking the refreshed first line of the document when the
old first line carried the marker), and when no line carries the marker it
inserts at the very top the marker plus the phrase `as of` plus the
timestamp WITHOUT the trailing colon: the two header forms differ by the
trailing colon in addition to the timestamp value. -/
theorem claim_C9 (comps : List Competition) (t d : List Char)
    (h1 : '\n' ∉ t) (h2 : t ≠ []) (h3 : rstripPy t = t) :
    ((∀ ln ∈ splitOnNl d, FIRST_LINE.isPrefixOf ln = false) →
      (splitOnNl (store_comp_details comps t (some d))).headD [] =
        headerInserted t) ∧
    (FIRST_LINE.isPrefixOf ((splitOnNl d).headD []) = true →
      (splitOnNl (store_comp_details comps t (some d))).headD [] =
        headerReplaced t) := by
  have hlast_t : isPySpace (t.getLastD 'a') = false := by
    have hgl := getLast_rstripPy_not_space t (by rw [h3]; exact h2)
    rwa [h3] at hgl
  constructor
  · intro hno
    rw [store_comp_details_eq]
    simp only [Option.getD_some]
    rw [headerPass_no_marker t d hno]
    exact firstLine_strip_join (headerInserted t) (splitOnNl d) _
      (not_nl_headerInserted h1) (marker_ne_nil (marker_prefix_headerInserted t))
      (by rw [headD_marker (marker_prefix_headerInserted t)]; decide)
      (by rw [getLast_headerInserted t h2]; exact hlast_t)
  · intro hfirst
    rw [store_comp_details_eq]
    simp only [Option.getD_some]
    rcases headerPass_first_marker t d hfirst with ⟨LS, hLS⟩
    rw [hLS]
    exact firstLine_strip_join (headerReplaced t) LS _
      (not_nl_headerReplaced h1) (marker_ne_nil (marker_prefix_headerReplaced t))
      (by rw [headD_marker (marker_prefix_headerReplaced t)]; decide)
      (by rw [getLast_headerReplaced t]; decide)

theorem witness_C9 :
    (splitOnNl (store_comp_details [] (str "2024-05-01 07:00:00")
        (some (str "no header here")))).headD [] =
      headerInserted (str "2024-05-01 07:00:00") ∧
    (splitOnNl (store_comp_details [] (str "2024-05-01 07:00:00")
        (some (FIRST_LINE ++ str " as of OLD:")))).headD [] =
      headerReplaced (str "2024-05-01 07:00:00") :=
  ⟨(claim_C9 [] (str "2024-05-01 07:00:00") (str "no header here")
      (by decide) (by decide) (by decide)).1 (by decide),
    (claim_C9 [] (str "2024-05-01 07:00:00") (FIRST_LINE ++ str " as of OLD:")
      (by decide) (by decide) (by decide)).2 (by decide)⟩

/-! ## Pieces for the idempotence analysis -/

theorem splitOnNl_append_three_nl (s : List Char) :
    splitOnNl (s ++ ['\n', '\n', '\n']) = splitOnNl s ++ [[], [], []] := by
  rw [show (['\n', '\n', '\n'] : List Char) = '\n' :: ['\n', '\n'] from rfl,
    splitOnNl_append_nl]
  rfl

theorem store_empty_eq (t : List Char) (old : Option (List Char)) :
    store_comp_details [] t old =
      pyStrip (joinNl (headerPass t (old.getD []))) ++ ['\n', '\n', '\n'] := by
  rw [store_comp_details_eq]
  have h0 : joinBlank ((sortBy
      (fun a b => lexLe a.announced_at b.announced_at) []).map renderComp) =
      ([] : List Char) := rfl
  rw [h0]
  simp only [List.append_nil, List.append_assoc]
  rfl

theorem replaceHeaderLine_ne_nil (t ln : List Char) (hne : ln ≠ []) :
    replaceHeaderLine t ln ≠ [] := by
  rw [replaceHeaderLine]
  split
  · exact marker_ne_nil (marker_prefix_headerReplaced t)
  · exact hne

theorem replaceHeaderLine_head (t ln : List Char)
    (hh : isPySpace (ln.headD 'a') = false) :
    isPySpace ((replaceHeaderLine t ln).headD 'a') = false := by
  rw [replaceHeaderLine]
  split
  · rw [headD_marker (marker_prefix_headerReplaced t)]
    decide
  · exact hh

theorem replaceHeaderLine_last (t ln : List Char)
    (hl : isPySpace (ln.getLastD 'a') = false) :
    isPySpace ((replaceHeaderLine t ln).getLastD 'a') = false := by
  rw [replaceHeaderLine]
  split
  · rw [getLast_headerReplaced t]
    decide
  · exact hl

theorem not_nl_replaceHeaderLine {t ln : List Char} (ht : '\n' ∉ t)
    (hln : '\n' ∉ ln) : '\n' ∉ replaceHeaderLine t ln := by
  rw [replaceHeaderLine]
  split
  · exact not_nl_headerReplaced ht
  · exact hln

theorem headD_headD_splitOnNl (s : List Char) (hne : s ≠ [])
    (h : isPySpace (s.headD 'a') = false) :
    (splitOnNl s).headD [] ≠ [] ∧
      ((splitOnNl s).headD []).headD 'a' = s.headD 'a' := by
  cases s with
  | nil => exact absurd rfl hne
  | cons c cs =>
    have hc : c ≠ '\n' := by
      intro he
      rw [List.headD_cons, he] at h
      exact absurd h (by decide)
    rw [splitOnNl_cons_ne c cs hc]
    simp

theorem lastline_splitOnNl (s : List Char) (hne : s ≠ [])
    (h : isPySpace (s.getLastD 'a') = false) :
    (splitOnNl s).getLastD [] ≠ [] ∧
      isPySpace (((splitOnNl s).getLastD []).getLastD 'a') = false := by
  have hnl : s.getLastD 'a' ≠ '\n' := by
    intro he
    rw [he] at h
    exact absurd h (by decide)
  rcases getLastD_splitOnNl s hne hnl with ⟨r, hr⟩
  rw [hr]
  constructor
  · simp
  · rw [List.getLastD_eq_getLast?, List.getLast?_concat]
    exact h

theorem joinNl_append (L T : List (List Char)) (hL : L ≠ []) (hT : T ≠ []) :
    joinNl (L ++ T) = joinNl L ++ '\n' :: joinNl T := by
  induction L with
  | nil => exact absurd rfl hL
  | cons x L2 ih =>
    cases L2 with
    | nil =>
      rw [List.singleton_append, joinNl_cons x T hT]
      rfl
    | cons y L3 =>
      rw [List.cons_append, joinNl_cons _ _ (by simp),
        joinNl_cons _ _ (by simp), ih (by simp)]
      simp [List.append_assoc]

theorem dropLast_append_getLastD (L : List (List Char)) (h : L ≠ [])
    (d : List Char) : L.dropLast ++ [L.getLastD d] = L := by
  rcases List.eq_nil_or_concat L with h0 | ⟨A, b, h0⟩
  · exact absurd h0 h
  · rw [List.concat_eq_append] at h0
    subst h0
    rw [List.dropLast_concat, List.getLastD_concat]

/-- The second run of the rewrite on a document of the shape the first run
produces (a stripped text followed by three newlines, containing a header
line) splits into exactly the first document's lines with every
marker-prefixed line replaced by the refreshed colon header. -/
theorem second_pass_eq (t2 : List Char) (h2a : '\n' ∉ t2) (S1 : List Char)
    (hstr : pyStrip S1 = S1)
    (hml : ∃ ml ∈ splitOnNl S1, FIRST_LINE.isPrefixOf ml = true) :
    splitOnNl (store_comp_details [] t2 (some (S1 ++ ['\n', '\n', '\n']))) =
      (splitOnNl (S1 ++ ['\n', '\n', '\n'])).map (replaceHeaderLine t2) := by
  rcases hml with ⟨ml, hml_mem, hml_pref⟩
  have hS1ne : S1 ≠ [] := by
    intro he
    rw [he] at hml_mem
    have hml0 : ml = [] := by simpa [splitOnNl] using hml_mem
    exact marker_ne_nil hml_pref hml0
  have hhead : isPySpace (S1.headD 'a') = false := by
    have h0 := head_pyStrip_not_space S1 (by rw [hstr]; exact hS1ne)
    rwa [hstr] at h0
  have hlastc : isPySpace (S1.getLastD 'a') = false := by
    have h0 := getLast_pyStrip_not_space S1 (by rw [hstr]; exact hS1ne)
    rwa [hstr] at h0
  have hsplit_d1 : splitOnNl (S1 ++ ['\n', '\n', '\n']) =
      splitOnNl S1 ++ [[], [], []] := splitOnNl_append_three_nl S1
  have hmap_d1 : (splitOnNl (S1 ++ ['\n', '\n', '\n'])).map (replaceHeaderLine t2) =
      (splitOnNl S1).map (replaceHeaderLine t2) ++ [[], [], []] := by
    rw [hsplit_d1, List.map_append]
    rfl
  have hrep_ml : replaceHeaderLine t2 ml = headerReplaced t2 := by
    simp [replaceHeaderLine, hml_pref]
  have hpass : headerPass t2 (S1 ++ ['\n', '\n', '\n']) =
      (splitOnNl (S1 ++ ['\n', '\n', '\n'])).map (replaceHeaderLine t2) := by
    rw [headerPass]
    have hany : (((splitOnNl (S1 ++ ['\n', '\n', '\n'])).map
        (replaceHeaderLine t2)).any (fun ln => FIRST_LINE.isPrefixOf ln)) = true := by
      refine List.any_eq_true.mpr ⟨replaceHeaderLine t2 ml, ?_, ?_⟩
      · exact List.mem_map.mpr ⟨ml,
          by rw [hsplit_d1]; exact List.mem_append_left _ hml_mem, rfl⟩
      · rw [hrep_ml]
        exact marker_prefix_headerReplaced t2
    rw [if_pos hany]
  rw [store_empty_eq t2 (some (S1 ++ ['\n', '\n', '\n']))]
  simp only [Option.getD_some]
  rw [hpass, hmap_d1]
  have hM1ne : (splitOnNl S1).map (replaceHeaderLine t2) ≠ [] := by
    intro he
    exact splitOnNl_ne_nil S1 (List.map_eq_nil_iff.mp he)
  have hjoin : joinNl ((splitOnNl S1).map (replaceHeaderLine t2) ++ [[], [], []]) =
      joinNl ((splitOnNl S1).map (replaceHeaderLine t2)) ++ ['\n', '\n', '\n'] := by
    rw [joinNl_append _ _ hM1ne (by simp)]
    rfl
  rw [hjoin, pyStrip_append_spaces _ _ (by decide)]
  have hJhead : isPySpace ((joinNl ((splitOnNl S1).map
      (replaceHeaderLine t2))).headD 'a') = false := by
    rcases headD_headD_splitOnNl S1 hS1ne hhead with ⟨hf1ne, hf1hd⟩
    cases hsp : splitOnNl S1 with
    | nil => exact absurd hsp (splitOnNl_ne_nil S1)
    | cons f1 rest =>
      rw [hsp, List.headD_cons] at hf1ne hf1hd
      rw [List.map_cons,
        headD_joinNl _ _ (replaceHeaderLine_ne_nil t2 f1 hf1ne)]
      exact replaceHeaderLine_head t2 f1 (by rw [hf1hd]; exact hhead)
  have hJlast : isPySpace ((joinNl ((splitOnNl S1).map
      (replaceHeaderLine t2))).getLastD 'a') = false := by
    rcases lastline_splitOnNl S1 hS1ne hlastc with ⟨hzne, hzlast⟩
    have hdecomp : (splitOnNl S1).dropLast ++ [(splitOnNl S1).getLastD []] =
        splitOnNl S1 := dropLast_append_getLastD _ (splitOnNl_ne_nil S1) []
    rw [← hdecomp, List.map_append, List.map_cons, List.map_nil,
      List.getLastD_eq_getLast?,
      getLast?_joinNl_concat _ _
        (replaceHeaderLine_ne_nil t2 _ hzne),
      ← List.getLastD_eq_getLast?]
    exact replaceHeaderLine_last t2 _ hzlast
  rw [pyStrip_eq_self _ hJhead hJlast]
  rw [splitOnNl_append_three_nl, splitOnNl_joinNl _ hM1ne ?hnl]
  case hnl =>
    intro x hx
    rcases List.mem_map.mp hx with ⟨ln, hln, hrep⟩
    rw [← hrep]
    exact not_nl_replaceHeaderLine h2a (not_nl_mem_of_mem_splitOnNl hln)

/-! ## Claim C5 -/

/-- Counterexample to claim C5 as stated: rewriting twice with an empty
competition list and the SAME timestamp still changes the document, because
the first run inserts a header without a trailing colon and the second run
replaces it with the colon form; so more than the header timestamp differs
between the two resulting documents. -/
theorem cex_C5 :
    store_comp_details [] (str "T")
        (some (store_comp_details [] (str "T") none)) ≠
      store_comp_details [] (str "T") none := by
  decide

/-- Claim C5, amended: for timestamp strings with no newline (the first one
also nonempty and right-stripped), running the rewrite twice in a row with
an empty competition list changes only the header lines: line by line, the
second resulting document is exactly the first one with every
marker-prefixed line replaced by the refreshed colon header, and every
other line, in particular all of the body, is identical. -/
theorem claim_C5 (old : Option (List Char)) (t1 t2 : List Char)
    (h1a : '\n' ∉ t1) (h1b : t1 ≠ []) (h1c : rstripPy t1 = t1)
    (h2a : '\n' ∉ t2) :
    splitOnNl (store_comp_details [] t2 (some (store_comp_details [] t1 old))) =
      (splitOnNl (store_comp_details [] t1 old)).map (replaceHeaderLine t2) := by
  have hml : ∃ ml ∈ splitOnNl (pyStrip (joinNl (headerPass t1 (old.getD [])))),
      FIRST_LINE.isPrefixOf ml = true := by
    rcases marker_mem_headerPass t1 (old.getD []) with ⟨ln, hln, hpref, hshape⟩
    have hnl : '\n' ∉ ln := by
      rcases hshape with hsh | hsh
      · rw [hsh]
        exact not_nl_headerReplaced h1a
      · rw [hsh]
        exact not_nl_headerInserted h1a
    have hne := marker_ne_nil hpref
    have hhd : isPySpace (ln.headD 'a') = false := by
      rw [headD_marker hpref]
      decide
    have hlt : isPySpace (ln.getLastD 'a') = false := by
      rcases hshape with hsh | hsh
      · rw [hsh, getLast_headerReplaced]
        decide
      · rw [hsh, getLast_headerInserted t1 h1b]
        have hgl := getLast_rstripPy_not_space t1 (by rw [h1c]; exact h1b)
        rwa [h1c] at hgl
    exact ⟨ln, mem_splitOnNl_pyStrip (mem_splitOnNl_joinNl hln hnl) hne hhd hlt, hpref⟩
  rw [store_empty_eq t1 old]
  exact second_pass_eq t2 h2a _ (pyStrip_idem _) hml

theorem witness_C5 :
    splitOnNl (store_comp_details [] (str "2024-05-02 08:00:00")
        (some (store_comp_details [] (str "2024-05-01 07:00:00") none))) =
      (splitOnNl (store_comp_details [] (str "2024-05-01 07:00:00") none)).map
        (replaceHeaderLine (str "2024-05-02 08:00:00")) :=
  claim_C5 none (str "2024-05-01 07:00:00") (str "2024-05-02 08:00:00")
    (by decide) (by decide) (by decide) (by decide)

/-! ## Claim C1 -/

/-- Counterexample to claim C1 as stated: rewriting with an EMPTY filtered
list (so the renderings are empty) over a document whose body contains the
line `OldEntry` still leaves that line in the document: the old body is
retained, not discarded, so the body does not consist exactly of the
renderings of the filtered list, and an identifier from an earlier run can
stay visible. -/
theorem cex_C1 :
    str "OldEntry" ∈ splitOnNl (store_comp_details [] (str "T")
        (some (FIRST_LINE ++ str "\n\nOldEntry"))) ∧
      ([] : List Competition).map renderComp = [] := by
  refine ⟨by decide, rfl⟩

/-- Claim C1, amended: after the rewrite the renderings of the filtered
competitions, sorted ascending by announcement time and blank-line
separated, stand at the END of the document (they are a suffix, preceded by
a blank line and followed by a final newline); the old document is NOT
discarded: every line of the old document that does not carry the header
marker, is nonempty, and neither starts nor ends in whitespace is still a
line of the rewritten document.  Consequently the claimed body invariant
does not hold: previously seen identifiers can remain in the body. -/
theorem claim_C1 (comps : List Competition) (t : List Char)
    (old : Option (List Char)) :
    (str "\n\n" ++ joinBlank ((sortBy
        (fun a b => lexLe a.announced_at b.announced_at) comps).map renderComp) ++
      str "\n") <:+ store_comp_details comps t old ∧
    (∀ line ∈ splitOnNl (old.getD []), FIRST_LINE.isPrefixOf line = false →
      line ≠ [] → isPySpace (line.headD 'a') = false →
      isPySpace (line.getLastD 'a') = false →
      line ∈ splitOnNl (store_comp_details comps t old)) := by
  constructor
  · rw [store_comp_details_eq]
    refine ⟨pyStrip (joinNl (headerPass t (old.getD []))), ?_⟩
    simp [List.append_assoc]
  · intro line hmem hnm hne hh hl
    rw [store_comp_details_eq]
    have h1 : line ∈ headerPass t (old.getD []) :=
      mem_headerPass_of_not_marker t hmem hnm
    have hnl : '\n' ∉ line := not_nl_mem_of_mem_splitOnNl hmem
    have h3 : line ∈ splitOnNl (pyStrip (joinNl (headerPass t (old.getD [])))) :=
      mem_splitOnNl_pyStrip (mem_splitOnNl_joinNl h1 hnl) hne hh hl
    have heq : pyStrip (joinNl (headerPass t (old.getD []))) ++ str "\n\n" ++
        joinBlank ((sortBy (fun a b => lexLe a.announced_at b.announced_at)
          comps).map renderComp) ++ str "\n" =
        pyStrip (joinNl (headerPass t (old.getD []))) ++ '\n' ::
          ('\n' :: (joinBlank ((sortBy
            (fun a b => lexLe a.announced_at b.announced_at)
            comps).map renderComp) ++ ['\n'])) := by
      have hnn : str "\n\n" = ['\n', '\n'] := rfl
      have hn1 : str "\n" = ['\n'] := rfl
      rw [hnn, hn1]
      simp [List.append_assoc]
    rw [heq, splitOnNl_append_nl]
    exact List.mem_append_left _ h3

theorem witness_C1 :
    str "OldBody" ∈
      splitOnNl (store_comp_details [] (str "T") (some (str "OldBody"))) :=
  (claim_C1 [] (str "T") (some (str "OldBody"))).2 (str "OldBody")
    (by decide) (by decide) (by decide) (by decide) (by decide)
